import Mathlib

/-!
Verification of the Ralph Wiggum loop (open-ralph-wiggum).

Shallow embedding of the text-processing and loop-driver logic of the
repository.  Strings are modelled as `List Char`.  The two completion
detectors (`checkTerminalPromise` from completion.ts and the driver's own
`checkCompletion`), the task-list checker, the duration and tool-summary
formatters, the ANSI stripper and the iteration driver's step semantics are
translated from the source.

Regular expressions in the source are embedded by their matching semantics:

* `/\x1b\[[0-9;]*m/g` (ANSI stripping) becomes a left-to-right scanner with
  an explicit state (`AnsiSt`): a match is ESC `[`, a maximal run of
  digits/semicolons, then `m`; on failure the scan resumes at the next
  possible start position, exactly as the global regex replace does.
* `new RegExp("^<promise>\\s*" + escapeRegex(promise) + "\\s*</promise>$", "i")`
  becomes an anchored matcher (`matchPromiseLine`): the promise is matched
  literally because `escapeRegex` escapes every regex metacharacter.  The
  `i` flag is modelled by ASCII case folding (`foldNat`), which covers the
  case folding the source relies on for its ASCII tags.
* the unanchored variant of the driver scans every start position
  (`looseScan`).
-/

/-- ASCII case folding on code points: the simple fold performed by the
regex `i` flag on the ASCII range (uppercase letters map to lowercase). -/
def foldNat (n : Nat) : Nat := if 65 ≤ n ∧ n ≤ 90 then n + 32 else n

/-- Case-insensitive character comparison used by the `i`-flagged regexes. -/
def ciEq (a b : Char) : Bool := foldNat a.toNat == foldNat b.toNat

/-- The `\s` character class of JavaScript regexes, which is also the set of
characters removed by `String.prototype.trim`. -/
def isJsWs (c : Char) : Bool :=
  let n := c.toNat
  n == 9 || n == 10 || n == 11 || n == 12 || n == 13 || n == 32 || n == 160 ||
  n == 0x1680 || (decide (0x2000 ≤ n) && decide (n ≤ 0x200a)) || n == 0x2028 ||
  n == 0x2029 || n == 0x202f || n == 0x205f || n == 0x3000 || n == 0xfeff

/-- The `[0-9;]` class of the ANSI pattern. -/
def ansiParamChar (c : Char) : Bool :=
  (decide (48 ≤ c.toNat ∧ c.toNat ≤ 57)) || c == ';'

/-- Scanner state for the global replace of `/\x1b\[[0-9;]*m/g`:
outside any candidate match, after ESC, or after ESC `[` with the
digit/semicolon run read so far. -/
inductive AnsiSt where
  | normal : AnsiSt
  | esc : AnsiSt
  | seq : List Char → AnsiSt
deriving DecidableEq

/-- Characters emitted when the input ends inside a candidate match (the
candidate failed, so the regex keeps its characters). -/
def ansiFinish : AnsiSt → List Char
  | AnsiSt.normal => []
  | AnsiSt.esc => ['\x1b']
  | AnsiSt.seq ds => '\x1b' :: '[' :: ds

/-- One scanner step: emitted characters and next state.  A failed candidate
emits its buffered characters; no new match can start inside the buffer
(its characters are never ESC), so only the failing character is re-examined. -/
def ansiStep : AnsiSt → Char → List Char × AnsiSt
  | AnsiSt.normal, c => if c = '\x1b' then ([], AnsiSt.esc) else ([c], AnsiSt.normal)
  | AnsiSt.esc, c =>
    if c = '[' then ([], AnsiSt.seq [])
    else if c = '\x1b' then (['\x1b'], AnsiSt.esc)
    else (['\x1b', c], AnsiSt.normal)
  | AnsiSt.seq ds, c =>
    if ansiParamChar c then ([], AnsiSt.seq (ds ++ [c]))
    else if c = 'm' then ([], AnsiSt.normal)
    else if c = '\x1b' then ('\x1b' :: '[' :: ds, AnsiSt.esc)
    else ('\x1b' :: '[' :: ds ++ [c], AnsiSt.normal)

/-- Run the scanner over the input, flushing the state at the end. -/
def stripGo : AnsiSt → List Char → List Char
  | s, [] => ansiFinish s
  | s, c :: rest => (ansiStep s c).1 ++ stripGo (ansiStep s c).2 rest

/-- completion.ts stripAnsi: `input.replace(/\u001b\[[0-9;]*m/g, "")` (the
loop script's own stripAnsi uses the identical pattern). -/
def stripAnsi (input : List Char) : List Char := stripGo AnsiSt.normal input

/-- The global replace of `/\r\n/g` by `"\n"` in getLastNonEmptyLine (and the
`\r?\n` split separators elsewhere reduce to this normalization). -/
def normNewlines : List Char → List Char
  | [] => []
  | '\r' :: '\n' :: rest => '\n' :: normNewlines rest
  | c :: rest => c :: normNewlines rest

/-- `split("\n")` on the normalized text. -/
def splitNl : List Char → List (List Char)
  | [] => [[]]
  | c :: rest =>
    if c = '\n' then [] :: splitNl rest
    else
      match splitNl rest with
      | [] => [[c]]
      | l :: ls => (c :: l) :: ls

/-- `String.prototype.trim`: drop JS whitespace from both ends. -/
def trimChars (l : List Char) : List Char :=
  ((l.dropWhile isJsWs).reverse.dropWhile isJsWs).reverse

/-- completion.ts getLastNonEmptyLine: strip ANSI, normalize CRLF, split into
lines, trim each, drop empties, return the last line or none. -/
def getLastNonEmptyLine (output : List Char) : Option (List Char) :=
  (((splitNl (normNewlines (stripAnsi output))).map trimChars).filter
    (fun l => !l.isEmpty)).getLast?

/-- The literal `<promise>` open delimiter of the tag pattern. -/
def openTagL : List Char := ['<', 'p', 'r', 'o', 'm', 'i', 's', 'e', '>']

/-- The literal `</promise>` close delimiter of the tag pattern. -/
def closeTagL : List Char := ['<', '/', 'p', 'r', 'o', 'm', 'i', 's', 'e', '>']

/-- The literal tag line `<promise>` ++ T ++ `</promise>` appended by the
testable property of §8 of the spec. -/
def promiseTagLine (T : List Char) : List Char := openTagL ++ (T ++ closeTagL)

/-- Case-insensitive equality of two character lists. -/
def ciListEq : List Char → List Char → Bool
  | [], [] => true
  | a :: as, b :: bs => ciEq a b && ciListEq as bs
  | _, _ => false

/-- Consume a literal (case-insensitively) from the front of the input,
returning the remainder; none when the input does not start with it. -/
def ciConsume : List Char → List Char → Option (List Char)
  | [], rest => some rest
  | _ :: _, [] => none
  | p :: ps, c :: cs => if ciEq p c then ciConsume ps cs else none

/-- Does the input start (case-insensitively) with the given literal? -/
def ciStartsWith : List Char → List Char → Bool
  | [], _ => true
  | _ :: _, [] => false
  | p :: ps, c :: cs => ciEq p c && ciStartsWith ps cs

/-- After the leading whitespace run consumed so far, try the literal
promise, then `\s*</promise>$`: since `<` is not whitespace, the trailing
`\s*` must absorb exactly the maximal whitespace run. -/
def hereExact (promise r : List Char) : Bool :=
  match ciConsume promise r with
  | some rem => ciListEq closeTagL (rem.dropWhile isJsWs)
  | none => false

/-- Backtracking over the leading `\s*` of the anchored pattern: a match of
`\s* promise \s* </promise>$` exists iff it exists at some split point. -/
def midExact (promise : List Char) : List Char → Bool
  | [] => hereExact promise []
  | c :: rest => hereExact promise (c :: rest) || (isJsWs c && midExact promise rest)

/-- completion.ts pattern `^<promise>\s*P\s*</promise>$` with the `i` flag,
applied to a whole line (P literal thanks to escapeRegex). -/
def matchPromiseLine (promise line : List Char) : Bool :=
  match ciConsume openTagL line with
  | some r => midExact promise r
  | none => false

/-- completion.ts checkTerminalPromise: the anchored detector — the exact
promise tag must be the final non-empty (trimmed) line. -/
def checkTerminalPromise (output promise : List Char) : Bool :=
  match getLastNonEmptyLine output with
  | none => false
  | some lastLine => matchPromiseLine promise lastLine

/-- Unanchored tail of the loose pattern: after the promise literal, require
`\s*</promise>` as a prefix of the remainder. -/
def hereLoose (promise r : List Char) : Bool :=
  match ciConsume promise r with
  | some rem => ciStartsWith closeTagL (rem.dropWhile isJsWs)
  | none => false

/-- Backtracking over the inner `\s*` of the unanchored pattern. -/
def midLoose (promise : List Char) : List Char → Bool
  | [] => hereLoose promise []
  | c :: rest => hereLoose promise (c :: rest) || (isJsWs c && midLoose promise rest)

/-- Does the loose pattern `<promise>\s*P\s*</promise>` (flag `i`) match at
the start of the given suffix? -/
def atLoose (promise s : List Char) : Bool :=
  match ciConsume openTagL s with
  | some r => midLoose promise r
  | none => false

/-- Unanchored regex test: try the pattern at every start position. -/
def looseScan (promise : List Char) : List Char → Bool
  | [] => atLoose promise []
  | c :: rest => atLoose promise (c :: rest) || looseScan promise rest

/-- The loop script's checkCompletion: the loose detector — the promise tag
pattern may occur anywhere in the raw output (no ANSI stripping, no line
anchoring). -/
def checkCompletion (output promise : List Char) : Bool := looseScan promise output

/-- True when the last non-empty line of the output (if any) does not itself
match the anchored promise-tag pattern. -/
def lastLineRejects (output promise : List Char) : Bool :=
  match getLastNonEmptyLine output with
  | none => true
  | some l => !(matchPromiseLine promise l)

/-- The `[ xX/]` marker class of the checklist pattern. -/
def taskMarkerChar (c : Char) : Bool := c == ' ' || c == 'x' || c == 'X' || c == '/'

/-- Match of `/^\s*-\s+\[([ xX\/])\]\s+/` on one line, returning the captured
marker.  Each greedy whitespace run is deterministic because the following
literal (`-`, `[`) is never whitespace; `\s+` needs at least one character. -/
def lineTaskMarker (line : List Char) : Option Char :=
  match line.dropWhile isJsWs with
  | '-' :: r2 =>
    match r2 with
    | c :: _ =>
      if isJsWs c then
        match r2.dropWhile isJsWs with
        | '[' :: m :: ']' :: r3 =>
          if taskMarkerChar m then
            match r3 with
            | d :: _ => if isJsWs d then some m else none
            | [] => none
          else none
        | _ => none
      else none
    | [] => none
  | _ => none

/-- `split(/\r?\n/)` of a document. -/
def docLines (md : List Char) : List (List Char) := splitNl (normNewlines md)

/-- The scanning loop of tasksMarkdownAllComplete: `sawTask` accumulates
whether a task line was seen; a non-`x` marker returns false immediately. -/
def tasksGo : Bool → List (List Char) → Bool
  | sawTask, [] => sawTask
  | sawTask, line :: rest =>
    match lineTaskMarker line with
    | none => tasksGo sawTask rest
    | some m => if foldNat m.toNat == 120 then tasksGo true rest else false

/-- completion.ts tasksMarkdownAllComplete: true only when there is at least
one task checkbox and all checkboxes are complete. -/
def tasksMarkdownAllComplete (tasksMarkdown : List Char) : Bool :=
  tasksGo false (docLines tasksMarkdown)

/-- `String(n).padStart(2, "0")` for the minute/second fields (< 60). -/
def pad2 (n : Nat) : String := if n < 10 then "0" ++ Nat.repr n else Nat.repr n

/-- The loop script's formatDuration: truncate to whole seconds (never
negative), then `H:MM:SS` when hours are positive, else `M:SS`. -/
def formatDuration (ms : Int) : String :=
  let totalSeconds : Nat := (max 0 (Int.fdiv ms 1000)).toNat
  let hours := totalSeconds / 3600
  let minutes := (totalSeconds % 3600) / 60
  let seconds := totalSeconds % 60
  if 0 < hours then Nat.repr hours ++ ":" ++ pad2 minutes ++ ":" ++ pad2 seconds
  else Nat.repr minutes ++ ":" ++ pad2 seconds

/-- Comparator of `sort((a, b) => b[1] - a[1])`: descending by count. -/
def toolEntryGe (a b : String × Nat) : Prop := b.2 ≤ a.2

instance : DecidableRel toolEntryGe :=
  fun a b => inferInstanceAs (Decidable (b.2 ≤ a.2))

instance : IsTotal (String × Nat) toolEntryGe := ⟨fun a b => Nat.le_total b.2 a.2⟩

instance : IsTrans (String × Nat) toolEntryGe :=
  ⟨fun _ _ _ hab hbc => Nat.le_trans hbc hab⟩

/-- The stable descending sort performed by `Array.prototype.sort` (stable
per the ECMAScript specification) with the comparator above. -/
def sortToolEntries (entries : List (String × Nat)) : List (String × Nat) :=
  List.insertionSort toolEntryGe entries

/-- The ` • ` separator of `parts.join(" • ")`. -/
def toolSep : String := " \u2022 "

/-- One `"name count"` part. -/
def entryFmt (e : String × Nat) : String := e.1 ++ " " ++ Nat.repr e.2

/-- The loop script's formatToolSummary: entries of the counts map in
insertion order, sorted descending by count; the top maxItems are rendered,
and `+K more` is appended when K entries remain. -/
def formatToolSummary (toolCounts : List (String × Nat)) (maxItems : Nat) : String :=
  if toolCounts.isEmpty then ""
  else
    let entries := sortToolEntries toolCounts
    let shown := entries.take maxItems
    let remaining := entries.length - shown.length
    let parts := shown.map entryFmt
    let parts2 :=
      if 0 < remaining then parts ++ ["+" ++ Nat.repr remaining ++ " more"] else parts
    String.intercalate toolSep parts2

/-- formatToolSummary with the default `maxItems = 6` of the source. -/
def formatToolSummaryDefault (toolCounts : List (String × Nat)) : String :=
  formatToolSummary toolCounts 6

/-- The `[A-Za-z0-9_-]` class of the tool-marker pattern. -/
def toolTokenChar (c : Char) : Bool :=
  decide (65 ≤ c.toNat ∧ c.toNat ≤ 90) || decide (97 ≤ c.toNat ∧ c.toNat ≤ 122) ||
  decide (48 ≤ c.toNat ∧ c.toNat ≤ 57) || c == '_' || c == '-'

/-- The tool-marker match of collectToolSummaryFromText:
`stripAnsi(line).match(/^\|\s{2}([A-Za-z0-9_-]+)/)`, returning the captured
tool name. -/
def collectToolLineMatch (line : List Char) : Option (List Char) :=
  match stripAnsi line with
  | '|' :: c1 :: c2 :: rest =>
    if isJsWs c1 && isJsWs c2 then
      let tok := rest.takeWhile toolTokenChar
      if tok.isEmpty then none else some tok
    else none
  | _ => none

/-- The identical tool-marker match performed by handleLine in the live
streaming path (same regex, applied per received line). -/
def handleLineToolMatch (line : List Char) : Option (List Char) :=
  match stripAnsi line with
  | '|' :: c1 :: c2 :: rest =>
    if isJsWs c1 && isJsWs c2 then
      let tok := rest.takeWhile toolTokenChar
      if tok.isEmpty then none else some tok
    else none
  | _ => none

/-- Modelled from the spec: the recognition rule as the specification words
it — a pipe character followed by exactly two space characters and a token
of letters/digits/hyphen/underscore (the source uses `\s{2}`, i.e. any two
whitespace characters, which this definition makes comparable). -/
def specToolMarker (line : List Char) : Option (List Char) :=
  match stripAnsi line with
  | '|' :: ' ' :: ' ' :: rest =>
    let tok := rest.takeWhile toolTokenChar
    if tok.isEmpty then none else some tok
  | _ => none

/-- `Map.set(tool, (get(tool) ?? 0) + 1)`: bump a count, keeping insertion
order, appending a new key at the end. -/
def bumpToolCount (tool : String) : List (String × Nat) → List (String × Nat)
  | [] => [(tool, 1)]
  | (t, n) :: rest =>
    if t = tool then (t, n + 1) :: rest else (t, n) :: bumpToolCount tool rest

/-- The loop script's collectToolSummaryFromText: split the text into lines
and count every line matching the tool marker. -/
def collectToolSummaryFromText (text : List Char) : List (String × Nat) :=
  (docLines text).foldl
    (fun counts line =>
      match collectToolLineMatch line with
      | some tok => bumpToolCount (String.mk tok) counts
      | none => counts) []

/-- Exact (case-sensitive) whole-list comparison at the front. -/
def listStartsWith : List Char → List Char → Bool
  | [], _ => true
  | _ :: _, [] => false
  | a :: as, b :: bs => a == b && listStartsWith as bs

/-- `String.prototype.includes`: the needle occurs at some position. -/
def containsSub (needle : List Char) : List Char → Bool
  | [] => listStartsWith needle []
  | c :: rest => listStartsWith needle (c :: rest) || containsSub needle rest

/-- The diagnostic string of the legacy placeholder plugin. -/
def placeholderMsg : List Char :=
  "ralph-wiggum is not yet ready for use. This is a placeholder package.".data

/-- The loop script's detectPlaceholderPluginError: substring test on the
combined output. -/
def detectPlaceholderPluginError (output : List Char) : Bool :=
  containsSub placeholderMsg output

/-- Abstract configuration of one Ralph run: the fixed completion promise,
the iteration bound (0 = unlimited), and the child process as an oracle
from the iteration number to its stdout text, stderr text and exit code. -/
structure LoopCfg where
  promise : List Char
  maxIter : Nat
  childStdout : Nat → List Char
  childStderr : Nat → List Char
  childExit : Nat → Int

/-- The combined output `result + "\n" + stderr` the driver inspects. -/
def combinedOutput (cfg : LoopCfg) (i : Nat) : List Char :=
  cfg.childStdout i ++ '\n' :: cfg.childStderr i

/-- Outcome of one pass of the driver's while-loop body at iteration `i`. -/
inductive IterOutcome where
  | stopMax : IterOutcome
  | stopPlaceholder : IterOutcome
  | stopChild : Int → IterOutcome
  | stopComplete : IterOutcome
  | next : Nat → IterOutcome
deriving DecidableEq

/-- One pass of runRalphLoop's while-loop body, in source order: the
max-iterations guard runs before the child is spawned; after the child
exits the driver checks the placeholder diagnostic, then a non-zero exit
code, then the loose completion detector, and otherwise advances. -/
def loopStep (cfg : LoopCfg) (i : Nat) : IterOutcome :=
  if 0 < cfg.maxIter ∧ cfg.maxIter < i then IterOutcome.stopMax
  else if detectPlaceholderPluginError (combinedOutput cfg i) then IterOutcome.stopPlaceholder
  else if cfg.childExit i ≠ 0 then IterOutcome.stopChild (cfg.childExit i)
  else if checkCompletion (combinedOutput cfg i) cfg.promise then IterOutcome.stopComplete
  else IterOutcome.next (i + 1)

/-- Terminal states of the driver. -/
inductive TermKind where
  | maxReached : TermKind
  | placeholderFailure : TermKind
  | childFailed : Int → TermKind
  | completed : TermKind
deriving DecidableEq

/-- A finished run: how it stopped, how many children were spawned, and the
persisted state file at exit (the source calls clearState on every terminal
path, so it is always `none`). -/
structure TermResult where
  kind : TermKind
  spawns : Nat
  finalState : Option Nat
deriving DecidableEq

/-- Process exit code of each terminal state. -/
def exitCodeOfTerm : TermKind → Int
  | TermKind.maxReached => 0
  | TermKind.completed => 0
  | TermKind.placeholderFailure => 1
  | TermKind.childFailed code => code

/-- Fueled execution of the driver loop from iteration `i` with `spawns`
children already run; `none` when the fuel runs out before a terminal
state (the unlimited loop can run forever). -/
def runFrom (cfg : LoopCfg) : Nat → Nat → Nat → Option TermResult
  | 0, _, _ => none
  | fuel + 1, i, spawns =>
    match loopStep cfg i with
    | IterOutcome.stopMax => some ⟨TermKind.maxReached, spawns, none⟩
    | IterOutcome.stopPlaceholder => some ⟨TermKind.placeholderFailure, spawns + 1, none⟩
    | IterOutcome.stopChild code => some ⟨TermKind.childFailed code, spawns + 1, none⟩
    | IterOutcome.stopComplete => some ⟨TermKind.completed, spawns + 1, none⟩
    | IterOutcome.next j => runFrom cfg fuel j (spawns + 1)

/-- The whole loop starts at iteration 1 with no children spawned. -/
def runRalphLoop (cfg : LoopCfg) (fuel : Nat) : Option TermResult :=
  runFrom cfg fuel 1 0

/-- A concrete benign run used to instantiate the driver theorems: bound of
one iteration, a child that prints `hello`, emits no tag and exits 0. -/
def exampleLoopCfg : LoopCfg :=
  ⟨"DONE".data, 1, fun _ => "hello".data, fun _ => [], fun _ => 0⟩

/-- The loop script's loadState, with the filesystem and JSON.parse as
parameters: `fileContent` is the state file's content when it exists, and
`parseJson` is the parser — the outer Option is `none` where `JSON.parse`
would throw (the `catch` in the source turns that throw into `null`), and a
successful parse yields an inner `Option J` because the JSON value `null`
(file content `null`) is itself a possible parse result, which the source
returns unchanged. -/
def loadState {J : Type} (parseJson : List Char → Option (Option J))
    (fileContent : Option (List Char)) : Option J :=
  match fileContent with
  | none => none
  | some raw =>
    match parseJson raw with
    | some v => v
    | none => none

/-- A concrete JSON.parse oracle for the loadState theorems: the content
`null` parses successfully to the JSON value null; everything else throws. -/
def parseNullExample : List Char → Option (Option Nat) :=
  fun raw => if raw = "null".data then some none else none

/-! ## Lemmas about case-insensitive matching -/

theorem ciEq_refl (a : Char) : ciEq a a = true := by simp [ciEq]

theorem ciEq_symm {a b : Char} (h : ciEq a b = true) : ciEq b a = true := by
  simp [ciEq] at h ⊢
  exact h.symm

theorem ciListEq_refl (l : List Char) : ciListEq l l = true := by
  induction l with
  | nil => rfl
  | cons a as ih => simp [ciListEq, ciEq_refl, ih]

theorem ciListEq_symm : ∀ {a b : List Char}, ciListEq a b = true → ciListEq b a = true := by
  intro a
  induction a with
  | nil =>
    intro b h
    cases b with
    | nil => rfl
    | cons y ys => simp [ciListEq] at h
  | cons x xs ih =>
    intro b h
    cases b with
    | nil => simp [ciListEq] at h
    | cons y ys =>
      simp only [ciListEq, Bool.and_eq_true] at h ⊢
      exact ⟨ciEq_symm h.1, ih h.2⟩

theorem ciListEq_length : ∀ {a b : List Char}, ciListEq a b = true → a.length = b.length := by
  intro a
  induction a with
  | nil =>
    intro b h
    cases b with
    | nil => rfl
    | cons y ys => simp [ciListEq] at h
  | cons x xs ih =>
    intro b h
    cases b with
    | nil => simp [ciListEq] at h
    | cons y ys =>
      simp only [ciListEq, Bool.and_eq_true] at h
      simp [ih h.2]

theorem ciConsume_of_ciListEq :
    ∀ {p q : List Char}, ciListEq p q = true → ∀ (v : List Char), ciConsume p (q ++ v) = some v := by
  intro p
  induction p with
  | nil =>
    intro q h v
    cases q with
    | nil => rfl
    | cons y ys => simp [ciListEq] at h
  | cons x xs ih =>
    intro q h v
    cases q with
    | nil => simp [ciListEq] at h
    | cons y ys =>
      simp only [ciListEq, Bool.and_eq_true] at h
      simp only [List.cons_append, ciConsume, h.1, if_true]
      exact ih h.2 v

theorem ciConsume_append :
    ∀ {p s r : List Char}, ciConsume p s = some r → ∀ (v : List Char),
      ciConsume p (s ++ v) = some (r ++ v) := by
  intro p
  induction p with
  | nil =>
    intro s r h v
    simp only [ciConsume] at h ⊢
    rw [Option.some_inj] at h
    subst h
    rfl
  | cons x xs ih =>
    intro s r h v
    cases s with
    | nil => simp [ciConsume] at h
    | cons c cs =>
      simp only [ciConsume] at h ⊢
      by_cases hc : ciEq x c = true
      · rw [if_pos hc] at h ⊢
        exact ih h v
      · rw [if_neg hc] at h
        exact absurd h (by simp)

theorem ciStartsWith_of_ciListEq_append :
    ∀ {p q : List Char}, ciListEq p q = true → ∀ (v : List Char),
      ciStartsWith p (q ++ v) = true := by
  intro p
  induction p with
  | nil => intro q h v; rfl
  | cons x xs ih =>
    intro q h v
    cases q with
    | nil => simp [ciListEq] at h
    | cons y ys =>
      simp only [ciListEq, Bool.and_eq_true] at h
      simp only [List.cons_append, ciStartsWith, Bool.and_eq_true]
      exact ⟨h.1, ih h.2 v⟩

/-! ## Arithmetic facts about the character classes -/

theorem ciEq_lt_toNat {b : Char} (h : ciEq '<' b = true) : b.toNat = 60 := by
  simp only [ciEq, beq_iff_eq] at h
  have h60 : foldNat (Char.toNat '<') = 60 := rfl
  rw [h60] at h
  unfold foldNat at h
  split at h <;> omega

theorem isJsWs_false_of_toNat {b : Char} (h : b.toNat = 60 ∨ b.toNat = 62) :
    isJsWs b = false := by
  simp only [isJsWs, Bool.or_eq_false_iff, beq_eq_false_iff_ne, ne_eq,
    Bool.and_eq_false_iff, decide_eq_false_iff_not, not_le]
  omega

/-! ## dropWhile lemmas for the greedy whitespace runs -/

theorem dropWhile_ws_append_all {w : List Char} (b : List Char)
    (h : ∀ c ∈ w, isJsWs c = true) :
    (w ++ b).dropWhile isJsWs = b.dropWhile isJsWs := by
  induction w with
  | nil => rfl
  | cons c cs ih =>
    have hc : isJsWs c = true := h c (by simp)
    simp only [List.cons_append, List.dropWhile_cons, hc, if_true]
    exact ih (fun x hx => h x (by simp [hx]))

theorem dropWhile_append_of_ne_nil {p : Char → Bool} :
    ∀ {a : List Char} (b : List Char), a.dropWhile p ≠ [] →
      (a ++ b).dropWhile p = a.dropWhile p ++ b := by
  intro a
  induction a with
  | nil => intro b h; exact absurd rfl h
  | cons c cs ih =>
    intro b h
    by_cases hc : p c = true
    · simp only [List.cons_append, List.dropWhile_cons, hc, if_true] at h ⊢
      exact ih b h
    · have hc2 : p c = false := by revert hc; cases p c <;> simp
      simp [List.dropWhile_cons, hc2]

theorem close_ne_nil_of_ciListEq {c' : List Char} (h : ciListEq closeTagL c' = true) :
    c' ≠ [] := by
  intro hnil
  subst hnil
  simp [ciListEq, closeTagL] at h

theorem dropWhile_ws_close {w c' : List Char} (hw : ∀ x ∈ w, isJsWs x = true)
    (hc : ciListEq closeTagL c' = true) :
    (w ++ c').dropWhile isJsWs = c' := by
  rw [dropWhile_ws_append_all c' hw]
  cases c' with
  | nil => exact absurd rfl (close_ne_nil_of_ciListEq hc)
  | cons b bs =>
    have hb : ciEq '<' b = true := by
      simp only [closeTagL, ciListEq, Bool.and_eq_true] at hc
      exact hc.1
    simp [List.dropWhile_cons, isJsWs_false_of_toNat (Or.inl (ciEq_lt_toNat hb))]

theorem close_head_not_ws {b : Char} {bs c' : List Char}
    (hc : ciListEq closeTagL c' = true) (hx : c' = b :: bs) : isJsWs b = false := by
  subst hx
  simp only [closeTagL, ciListEq, Bool.and_eq_true] at hc
  exact isJsWs_false_of_toNat (Or.inl (ciEq_lt_toNat hc.1))

/-! ## Structure lemmas for the tag matchers -/

theorem hereExact_parts {P p' w2 c' : List Char} (hp : ciListEq P p' = true)
    (hw : ∀ x ∈ w2, isJsWs x = true) (hc : ciListEq closeTagL c' = true) :
    hereExact P (p' ++ (w2 ++ c')) = true := by
  unfold hereExact
  rw [ciConsume_of_ciListEq hp (w2 ++ c')]
  show ciListEq closeTagL ((w2 ++ c').dropWhile isJsWs) = true
  rw [dropWhile_ws_close hw hc]
  exact hc

theorem midExact_of_hereExact {P l : List Char} (h : hereExact P l = true) :
    midExact P l = true := by
  cases l <;> simp [midExact, h]

theorem midExact_parts {P p' w2 c' : List Char} (hp : ciListEq P p' = true)
    (hw2 : ∀ x ∈ w2, isJsWs x = true) (hc : ciListEq closeTagL c' = true) :
    ∀ {w1 : List Char}, (∀ x ∈ w1, isJsWs x = true) →
      midExact P (w1 ++ (p' ++ (w2 ++ c'))) = true := by
  intro w1
  induction w1 with
  | nil =>
    intro _
    simp only [List.nil_append]
    exact midExact_of_hereExact (hereExact_parts hp hw2 hc)
  | cons c cs ih =>
    intro h1
    have hc1 : isJsWs c = true := h1 c (by simp)
    have ih2 := ih (fun x hx => h1 x (by simp [hx]))
    cases hcase : (cs ++ (p' ++ (w2 ++ c'))) with
    | nil => simp [midExact, hc1, ← hcase, ih2]
    | cons d ds => simp [midExact, hc1, ← hcase, ih2]

theorem matchPromiseLine_parts {P o' w1 p' w2 c' : List Char}
    (ho : ciListEq openTagL o' = true) (h1 : ∀ x ∈ w1, isJsWs x = true)
    (hp : ciListEq P p' = true) (h2 : ∀ x ∈ w2, isJsWs x = true)
    (hc : ciListEq closeTagL c' = true) :
    matchPromiseLine P (o' ++ (w1 ++ (p' ++ (w2 ++ c')))) = true := by
  unfold matchPromiseLine
  rw [ciConsume_of_ciListEq ho (w1 ++ (p' ++ (w2 ++ c')))]
  exact midExact_parts hp h2 hc h1

/-! ## Transfer from the anchored matcher to the loose matcher -/

theorem hereLoose_of_hereExact {P r : List Char} (h : hereExact P r = true)
    (v : List Char) : hereLoose P (r ++ v) = true := by
  unfold hereExact at h
  cases hcons : ciConsume P r with
  | none => rw [hcons] at h; exact absurd h (by simp)
  | some rem =>
    rw [hcons] at h
    have h2 : ciListEq closeTagL (rem.dropWhile isJsWs) = true := h
    unfold hereLoose
    rw [ciConsume_append hcons v]
    show ciStartsWith closeTagL ((rem ++ v).dropWhile isJsWs) = true
    have hne : rem.dropWhile isJsWs ≠ [] := by
      intro hnil
      have := ciListEq_length h2
      rw [hnil] at this
      simp [closeTagL] at this
    rw [dropWhile_append_of_ne_nil v hne]
    exact ciStartsWith_of_ciListEq_append h2 v

theorem midLoose_of_hereLoose {P l : List Char} (h : hereLoose P l = true) :
    midLoose P l = true := by
  cases l <;> simp [midLoose, h]

theorem midLoose_of_midExact {P : List Char} :
    ∀ {r : List Char} (v : List Char), midExact P r = true → midLoose P (r ++ v) = true := by
  intro r
  induction r with
  | nil =>
    intro v h
    simp only [midExact] at h
    exact midLoose_of_hereLoose (hereLoose_of_hereExact h v)
  | cons c cs ih =>
    intro v h
    simp only [midExact, Bool.or_eq_true, Bool.and_eq_true] at h
    cases h with
    | inl h =>
      exact midLoose_of_hereLoose (hereLoose_of_hereExact h v)
    | inr h =>
      have := ih v h.2
      cases hcase : (cs ++ v) with
      | nil => simp [midLoose, h.1, ← hcase, this]
      | cons d ds => simp [midLoose, h.1, ← hcase, this]

theorem atLoose_of_matchPromiseLine {P l : List Char} (h : matchPromiseLine P l = true)
    (v : List Char) : atLoose P (l ++ v) = true := by
  unfold matchPromiseLine at h
  cases hcons : ciConsume openTagL l with
  | none => rw [hcons] at h; exact absurd h (by simp)
  | some r =>
    rw [hcons] at h
    unfold atLoose
    rw [ciConsume_append hcons v]
    exact midLoose_of_midExact v h

theorem looseScan_of_atLoose {P s : List Char} (h : atLoose P s = true) :
    ∀ (u : List Char), looseScan P (u ++ s) = true := by
  intro u
  induction u with
  | nil => cases s <;> simp [looseScan, h]
  | cons a as ih =>
    cases hcase : (as ++ s) with
    | nil => simp [looseScan, ← hcase, ih]
    | cons d ds => simp [looseScan, ← hcase, ih]

theorem checkCompletion_of_occurs {out P l : List Char} (u v : List Char)
    (hout : out = u ++ (l ++ v)) (h : matchPromiseLine P l = true) :
    checkCompletion out P = true := by
  subst hout
  exact looseScan_of_atLoose (atLoose_of_matchPromiseLine h v) u

/-! ## The ANSI scanner on appended text -/

theorem ansiStep_newline (s : AnsiSt) :
    ansiStep s '\n' = (ansiFinish s ++ ['\n'], AnsiSt.normal) := by
  cases s with
  | normal => simp [ansiStep, ansiFinish]
  | esc => simp [ansiStep, ansiFinish]
  | seq ds => simp [ansiStep, ansiFinish, ansiParamChar]

theorem stripGo_append_newline :
    ∀ {a : List Char} (s : AnsiSt) (b : List Char),
      stripGo s (a ++ '\n' :: b) = stripGo s a ++ '\n' :: stripGo AnsiSt.normal b := by
  intro a
  induction a with
  | nil =>
    intro s b
    simp [stripGo, ansiStep_newline]
  | cons c cs ih =>
    intro s b
    rw [show (c :: cs) ++ '\n' :: b = c :: (cs ++ '\n' :: b) from rfl]
    show (ansiStep s c).1 ++ stripGo (ansiStep s c).2 (cs ++ '\n' :: b) = _
    rw [ih]
    simp [stripGo, List.append_assoc]

theorem stripAnsi_append_newline (a b : List Char) :
    stripAnsi (a ++ '\n' :: b) = stripAnsi a ++ '\n' :: stripAnsi b :=
  stripGo_append_newline AnsiSt.normal b

theorem stripGo_of_no_esc :
    ∀ {l : List Char}, (∀ c ∈ l, c ≠ '\x1b') → stripGo AnsiSt.normal l = l := by
  intro l
  induction l with
  | nil => intro _; rfl
  | cons c cs ih =>
    intro h
    have hc : c ≠ '\x1b' := h c (by simp)
    simp only [stripGo, ansiStep, if_neg hc]
    simp [ih (fun x hx => h x (by simp [hx]))]

theorem stripAnsi_of_no_esc {l : List Char} (h : ∀ c ∈ l, c ≠ '\x1b') :
    stripAnsi l = l := stripGo_of_no_esc h

/-! ## CRLF normalization -/

theorem norm_of_no_nl : ∀ {l : List Char}, '\n' ∉ l → normNewlines l = l := by
  intro l
  induction l using normNewlines.induct with
  | case1 => intro _; rfl
  | case2 rest ih => intro h; simp at h
  | case3 c rest hguard ih =>
    intro h
    rw [normNewlines.eq_3 c rest hguard]
    have : '\n' ∉ rest := fun hm => h (by simp [hm])
    rw [ih this]

theorem norm_append_nl :
    ∀ {x : List Char} (t : List Char),
      ∃ w, normNewlines (x ++ '\n' :: t) = w ++ '\n' :: normNewlines t := by
  intro x
  induction x using normNewlines.induct with
  | case1 =>
    intro t
    refine ⟨[], ?_⟩
    rw [List.nil_append]
    rw [normNewlines.eq_3 '\n' t (by intro r h1 h2; exact absurd h1 (by decide))]
    rfl
  | case2 rest ih =>
    intro t
    obtain ⟨w, hw⟩ := ih t
    exact ⟨'\n' :: w, by simp [normNewlines, hw]⟩
  | case3 c rest hguard ih =>
    intro t
    by_cases hc : c = '\r'
    · subst hc
      cases rest with
      | nil =>
        refine ⟨[], ?_⟩
        simp [normNewlines]
      | cons d rest2 =>
        have hd : d ≠ '\n' := by
          intro hdn
          exact hguard rest2 rfl (by rw [hdn])
        obtain ⟨w, hw⟩ := ih t
        refine ⟨'\r' :: w, ?_⟩
        have hg2 : ∀ (r1 : List Char), '\r' = '\r' → (d :: rest2) ++ '\n' :: t = '\n' :: r1 → False := by
          intro r1 _ habs
          simp only [List.cons_append] at habs
          exact hd (by injection habs)
        calc normNewlines (('\r' :: d :: rest2) ++ '\n' :: t)
            = '\r' :: normNewlines ((d :: rest2) ++ '\n' :: t) := by
              rw [show ('\r' :: d :: rest2) ++ '\n' :: t = '\r' :: ((d :: rest2) ++ '\n' :: t) from rfl]
              exact normNewlines.eq_3 '\r' ((d :: rest2) ++ '\n' :: t) hg2
          _ = '\r' :: (w ++ '\n' :: normNewlines t) := by rw [hw]
          _ = ('\r' :: w) ++ '\n' :: normNewlines t := rfl
    · obtain ⟨w, hw⟩ := ih t
      refine ⟨c :: w, ?_⟩
      have hg2 : ∀ (r1 : List Char), c = '\r' → rest ++ '\n' :: t = '\n' :: r1 → False := by
        intro r1 hcr _
        exact hc hcr
      calc normNewlines ((c :: rest) ++ '\n' :: t)
          = c :: normNewlines (rest ++ '\n' :: t) := by
            rw [show (c :: rest) ++ '\n' :: t = c :: (rest ++ '\n' :: t) from rfl]
            exact normNewlines.eq_3 c (rest ++ '\n' :: t) hg2
        _ = c :: (w ++ '\n' :: normNewlines t) := by rw [hw]
        _ = (c :: w) ++ '\n' :: normNewlines t := rfl

/-! ## Line splitting -/

theorem splitNl_cons_nl (rest : List Char) : splitNl ('\n' :: rest) = [] :: splitNl rest := by
  simp [splitNl]

theorem splitNl_cons_other {c : Char} {rest l : List Char} {ls : List (List Char)}
    (hc : c ≠ '\n') (h : splitNl rest = l :: ls) : splitNl (c :: rest) = (c :: l) :: ls := by
  simp [splitNl, hc, h]

theorem splitNl_ne_nil : ∀ (l : List Char), splitNl l ≠ [] := by
  intro l
  cases l with
  | nil => simp [splitNl]
  | cons c rest =>
    by_cases hc : c = '\n'
    · subst hc
      rw [splitNl_cons_nl]
      simp
    · cases hcs : splitNl rest with
      | nil => exact absurd hcs (splitNl_ne_nil rest)
      | cons m ms =>
        rw [splitNl_cons_other hc hcs]
        simp

theorem splitNl_append_nl :
    ∀ {a : List Char} (b : List Char), splitNl (a ++ '\n' :: b) = splitNl a ++ splitNl b := by
  intro a
  induction a with
  | nil =>
    intro b
    rw [List.nil_append, splitNl_cons_nl]
    rfl
  | cons c cs ih =>
    intro b
    rw [show (c :: cs) ++ '\n' :: b = c :: (cs ++ '\n' :: b) from rfl]
    by_cases hc : c = '\n'
    · subst hc
      rw [splitNl_cons_nl, splitNl_cons_nl, ih]
      rfl
    · cases hcs : splitNl cs with
      | nil => exact absurd hcs (splitNl_ne_nil cs)
      | cons m ms =>
        have h2 : splitNl (cs ++ '\n' :: b) = m :: (ms ++ splitNl b) := by
          rw [ih, hcs]
          rfl
        rw [splitNl_cons_other hc h2, splitNl_cons_other hc hcs]
        rfl

theorem splitNl_of_no_nl : ∀ {t : List Char}, '\n' ∉ t → splitNl t = [t] := by
  intro t
  induction t with
  | nil => intro _; rfl
  | cons c cs ih =>
    intro h
    have hc : c ≠ '\n' := by intro hcn; exact h (by simp [hcn])
    have hcs : '\n' ∉ cs := fun hm => h (by simp [hm])
    rw [splitNl_cons_other hc (ih hcs)]

theorem splitNl_head_start :
    ∀ {x l₀ : List Char} {ls : List (List Char)}, splitNl x = l₀ :: ls → ∃ v, x = l₀ ++ v := by
  intro x
  induction x with
  | nil =>
    intro l₀ ls h
    simp only [splitNl, List.cons.injEq] at h
    exact ⟨[], by simp [← h.1]⟩
  | cons c cs ih =>
    intro l₀ ls h
    by_cases hc : c = '\n'
    · subst hc
      rw [splitNl_cons_nl] at h
      simp only [List.cons.injEq] at h
      exact ⟨'\n' :: cs, by simp [← h.1]⟩
    · cases hcs : splitNl cs with
      | nil => exact absurd hcs (splitNl_ne_nil cs)
      | cons m ms =>
        rw [splitNl_cons_other hc hcs] at h
        simp only [List.cons.injEq] at h
        obtain ⟨v, hv⟩ := ih hcs
        exact ⟨v, by simp [← h.1, hv]⟩

theorem mem_splitNl_occurs :
    ∀ {y L : List Char}, L ∈ splitNl y → ∃ u v, y = u ++ L ++ v := by
  intro y
  induction y with
  | nil =>
    intro L h
    simp only [splitNl, List.mem_singleton] at h
    exact ⟨[], [], by simp [h]⟩
  | cons c cs ih =>
    intro L h
    by_cases hc : c = '\n'
    · subst hc
      rw [splitNl_cons_nl] at h
      rcases List.mem_cons.mp h with h | h
      · exact ⟨[], '\n' :: cs, by simp [h]⟩
      · obtain ⟨u, v, huv⟩ := ih h
        exact ⟨'\n' :: u, v, by simp [huv]⟩
    · cases hcs : splitNl cs with
      | nil => exact absurd hcs (splitNl_ne_nil cs)
      | cons m ms =>
        rw [splitNl_cons_other hc hcs] at h
        rcases List.mem_cons.mp h with h | h
        · obtain ⟨v, hv⟩ := splitNl_head_start hcs
          exact ⟨[], v, by simp [h, hv]⟩
        · have hmem : L ∈ splitNl cs := by rw [hcs]; exact List.mem_cons_of_mem m h
          obtain ⟨u, v, huv⟩ := ih hmem
          exact ⟨c :: u, v, by simp [huv]⟩

theorem mem_splitNl_no_nl :
    ∀ {y L : List Char}, L ∈ splitNl y → '\n' ∉ L := by
  intro y
  induction y with
  | nil =>
    intro L h
    simp only [splitNl, List.mem_singleton] at h
    simp [h]
  | cons c cs ih =>
    intro L h
    by_cases hc : c = '\n'
    · subst hc
      rw [splitNl_cons_nl] at h
      rcases List.mem_cons.mp h with h | h
      · simp [h]
      · exact ih h
    · cases hcs : splitNl cs with
      | nil => exact absurd hcs (splitNl_ne_nil cs)
      | cons m ms =>
        rw [splitNl_cons_other hc hcs] at h
        rcases List.mem_cons.mp h with h | h
        · have hm : m ∈ splitNl cs := by rw [hcs]; exact List.mem_cons_self m ms
          have := ih hm
          subst h
          intro habs
          rcases List.mem_cons.mp habs with habs | habs
          · exact hc habs.symm
          · exact this habs
        · have hmem : L ∈ splitNl cs := by rw [hcs]; exact List.mem_cons_of_mem m h
          exact ih hmem

/-! ## Trimming -/

theorem dropWhile_ws_of_head {l : List Char}
    (h : ∀ c, l.head? = some c → isJsWs c = false) : l.dropWhile isJsWs = l := by
  cases l with
  | nil => rfl
  | cons c cs => simp [List.dropWhile_cons, h c rfl]

theorem trim_eq_self {l : List Char}
    (h1 : ∀ c, l.head? = some c → isJsWs c = false)
    (h2 : ∀ c, l.getLast? = some c → isJsWs c = false) : trimChars l = l := by
  unfold trimChars
  rw [dropWhile_ws_of_head h1]
  rw [dropWhile_ws_of_head (by intro c hc; rw [List.head?_reverse] at hc; exact h2 c hc)]
  exact List.reverse_reverse l

theorem trim_occurs (l : List Char) : ∃ u v, l = u ++ trimChars l ++ v := by
  refine ⟨l.takeWhile isJsWs, ((l.dropWhile isJsWs).reverse.takeWhile isJsWs).reverse, ?_⟩
  have h1 : l.takeWhile isJsWs ++ l.dropWhile isJsWs = l :=
    List.takeWhile_append_dropWhile isJsWs l
  have h2 : (l.dropWhile isJsWs).reverse.takeWhile isJsWs ++
      (l.dropWhile isJsWs).reverse.dropWhile isJsWs = (l.dropWhile isJsWs).reverse :=
    List.takeWhile_append_dropWhile isJsWs (l.dropWhile isJsWs).reverse
  have h3 : l.dropWhile isJsWs =
      trimChars l ++ ((l.dropWhile isJsWs).reverse.takeWhile isJsWs).reverse := by
    have := congrArg List.reverse h2
    rw [List.reverse_append, List.reverse_reverse] at this
    exact this.symm
  calc l = l.takeWhile isJsWs ++ l.dropWhile isJsWs := h1.symm
    _ = l.takeWhile isJsWs ++
        (trimChars l ++ ((l.dropWhile isJsWs).reverse.takeWhile isJsWs).reverse) := by rw [← h3]
    _ = l.takeWhile isJsWs ++ trimChars l ++
        ((l.dropWhile isJsWs).reverse.takeWhile isJsWs).reverse := by
        rw [List.append_assoc]

/-! ## Transfer of occurrences through CRLF normalization -/

theorem norm_starts :
    ∀ {x l : List Char}, (∃ v, normNewlines x = l ++ v) → '\n' ∉ l → ∃ v, x = l ++ v := by
  intro x
  induction x using normNewlines.induct with
  | case1 =>
    intro l h _
    obtain ⟨v, hv⟩ := h
    rw [normNewlines] at hv
    have := (List.append_eq_nil.mp hv.symm).1
    exact ⟨[], by simp [this]⟩
  | case2 rest ih =>
    intro l h hnl
    obtain ⟨v, hv⟩ := h
    rw [normNewlines] at hv
    cases l with
    | nil => exact ⟨'\r' :: '\n' :: rest, rfl⟩
    | cons a l' =>
      rw [List.cons_append] at hv
      injection hv with h1 h2
      exact absurd (by simp [h1.symm]) hnl
  | case3 c rest hguard ih =>
    intro l h hnl
    obtain ⟨v, hv⟩ := h
    rw [normNewlines.eq_3 c rest hguard] at hv
    cases l with
    | nil => exact ⟨c :: rest, rfl⟩
    | cons a l' =>
      rw [List.cons_append] at hv
      injection hv with h1 h2
      have hnl' : '\n' ∉ l' := fun hm => hnl (by simp [hm])
      obtain ⟨v', hv'⟩ := ih ⟨v, h2⟩ hnl'
      exact ⟨v', by rw [h1, List.cons_append, ← hv']⟩

theorem norm_occurs :
    ∀ {x l : List Char}, (∃ u v, normNewlines x = u ++ l ++ v) → '\n' ∉ l →
      ∃ u v, x = u ++ l ++ v := by
  intro x
  induction x using normNewlines.induct with
  | case1 =>
    intro l h _
    obtain ⟨u, v, huv⟩ := h
    rw [normNewlines] at huv
    have h1 := List.append_eq_nil.mp huv.symm
    have h2 := List.append_eq_nil.mp h1.1
    exact ⟨[], [], by simp [h2.2]⟩
  | case2 rest ih =>
    intro l h hnl
    obtain ⟨u, v, huv⟩ := h
    rw [normNewlines] at huv
    cases u with
    | nil =>
      rw [List.nil_append] at huv
      cases l with
      | nil => exact ⟨[], '\r' :: '\n' :: rest, rfl⟩
      | cons a l' =>
        rw [List.cons_append] at huv
        injection huv with h1 h2
        exact absurd (by simp [h1.symm]) hnl
    | cons b u' =>
      rw [List.cons_append, List.cons_append] at huv
      injection huv with h1 h2
      obtain ⟨u2, v2, hx⟩ := ih ⟨u', v, h2⟩ hnl
      exact ⟨'\r' :: '\n' :: u2, v2, by simp [hx]⟩
  | case3 c rest hguard ih =>
    intro l h hnl
    obtain ⟨u, v, huv⟩ := h
    rw [normNewlines.eq_3 c rest hguard] at huv
    cases u with
    | nil =>
      rw [List.nil_append] at huv
      cases l with
      | nil => exact ⟨[], c :: rest, rfl⟩
      | cons a l' =>
        rw [List.cons_append] at huv
        injection huv with h1 h2
        have hnl' : '\n' ∉ l' := fun hm => hnl (by simp [hm])
        obtain ⟨v', hv'⟩ := norm_starts ⟨v, h2⟩ hnl'
        refine ⟨[], v', ?_⟩
        rw [List.nil_append, h1, List.cons_append, ← hv']
    | cons b u' =>
      rw [List.cons_append, List.cons_append] at huv
      injection huv with h1 h2
      obtain ⟨u2, v2, hx⟩ := ih ⟨u', v, h2⟩ hnl
      exact ⟨c :: u2, v2, by simp [hx]⟩

/-! ## Reading back the last non-empty line -/

theorem lastNonEmpty_sourced {out l : List Char} (h : getLastNonEmptyLine out = some l) :
    ∃ L, L ∈ splitNl (normNewlines (stripAnsi out)) ∧ l = trimChars L := by
  unfold getLastNonEmptyLine at h
  have hmem := List.mem_of_mem_getLast? h
  have hmem2 := (List.mem_filter.mp hmem).1
  obtain ⟨L, hL, hLl⟩ := List.mem_map.mp hmem2
  exact ⟨L, hL, hLl.symm⟩

theorem checkTerminal_some {out P : List Char} (h : checkTerminalPromise out P = true) :
    ∃ l, getLastNonEmptyLine out = some l ∧ matchPromiseLine P l = true := by
  unfold checkTerminalPromise at h
  cases hg : getLastNonEmptyLine out with
  | none => rw [hg] at h; exact absurd h (by simp)
  | some l => rw [hg] at h; exact ⟨l, rfl, h⟩

/-- On ANSI-free output, anchored acceptance implies loose acceptance: the
accepted last line is a contiguous piece of the output, so the unanchored
scan finds the same tag. -/
theorem anchored_implies_loose {out P : List Char} (hclean : stripAnsi out = out)
    (h : checkTerminalPromise out P = true) : checkCompletion out P = true := by
  obtain ⟨l, hl, hm⟩ := checkTerminal_some h
  obtain ⟨L, hLmem, hlL⟩ := lastNonEmpty_sourced hl
  rw [hclean] at hLmem
  obtain ⟨u1, v1, h1⟩ := trim_occurs L
  obtain ⟨u2, v2, h2⟩ := mem_splitNl_occurs hLmem
  have hnlL : '\n' ∉ L := mem_splitNl_no_nl hLmem
  have hnl : '\n' ∉ l := by
    rw [hlL]
    intro hc
    exact hnlL (by rw [h1]; simp [hc])
  have hocc : ∃ u v, normNewlines out = u ++ l ++ v := by
    refine ⟨u2 ++ u1, v1 ++ v2, ?_⟩
    rw [h2, h1, hlL]
    simp [List.append_assoc]
  obtain ⟨u, v, huv⟩ := norm_occurs hocc hnl
  exact checkCompletion_of_occurs u v (by rw [huv, List.append_assoc]) hm

/-! ## Shape facts for case-insensitive images of the tag delimiters -/

theorem ciEq_gt_toNat {b : Char} (h : ciEq '>' b = true) : b.toNat = 62 := by
  simp only [ciEq, beq_iff_eq] at h
  have h62 : foldNat (Char.toNat '>') = 62 := rfl
  rw [h62] at h
  unfold foldNat at h
  split at h <;> omega

theorem ciListEq_open_shape {o' : List Char} (h : ciListEq openTagL o' = true) :
    ∃ b bs, o' = b :: bs ∧ ciEq '<' b = true := by
  cases o' with
  | nil => simp [ciListEq, openTagL] at h
  | cons b bs =>
    simp only [openTagL, ciListEq, Bool.and_eq_true] at h
    exact ⟨b, bs, rfl, h.1⟩

theorem ciListEq_concat :
    ∀ {xs : List Char} (x : Char) {b : List Char},
      ciListEq (xs ++ [x]) b = true → ∃ bs y, b = bs ++ [y] ∧ ciEq x y = true := by
  intro xs
  induction xs with
  | nil =>
    intro x b h
    cases b with
    | nil => simp [ciListEq] at h
    | cons y ys =>
      simp only [List.nil_append, ciListEq, Bool.and_eq_true] at h
      cases ys with
      | nil => exact ⟨[], y, rfl, h.1⟩
      | cons z zs => simp [ciListEq] at h
  | cons a as ih =>
    intro x b h
    cases b with
    | nil => simp [ciListEq] at h
    | cons y ys =>
      simp only [List.cons_append, ciListEq, Bool.and_eq_true] at h
      obtain ⟨bs, z, hbs, hz⟩ := ih x h.2
      exact ⟨y :: bs, z, by rw [hbs, List.cons_append], hz⟩

/-! ## The last non-empty line of a tag-terminated output -/

theorem getLast_single {t : List Char} (hnl : '\n' ∉ t) (hstrip : stripAnsi t = t)
    (htrim : trimChars t = t) (hne : t ≠ []) : getLastNonEmptyLine t = some t := by
  unfold getLastNonEmptyLine
  rw [hstrip, norm_of_no_nl hnl, splitNl_of_no_nl hnl]
  have hemp : t.isEmpty = false := by
    cases t with
    | nil => exact absurd rfl hne
    | cons c cs => rfl
  simp [htrim, List.filter, hemp]

theorem getLast_append_tag {B t : List Char} (hnl : '\n' ∉ t) (hstrip : stripAnsi t = t)
    (htrim : trimChars t = t) (hne : t ≠ []) :
    getLastNonEmptyLine (B ++ '\n' :: t) = some t := by
  unfold getLastNonEmptyLine
  rw [stripAnsi_append_newline, hstrip]
  obtain ⟨w, hw⟩ := @norm_append_nl (stripAnsi B) t
  rw [hw, norm_of_no_nl hnl, splitNl_append_nl, splitNl_of_no_nl hnl]
  have hemp : t.isEmpty = false := by
    cases t with
    | nil => exact absurd rfl hne
    | cons c cs => rfl
  rw [List.map_append, List.filter_append]
  simp only [List.map_cons, List.map_nil, htrim]
  have hfil : List.filter (fun l => !l.isEmpty) [t] = [t] := by simp [List.filter, hemp]
  rw [hfil, List.getLast?_concat]

/-! ## C2 -/

/-- C2: when a well-formed promise-tag line occurs inside the output but the
last non-empty line does not itself match the tag pattern, the anchored
detector rejects while the loose whole-output detector accepts; hence the
two detectors are not equivalent. -/
theorem c2_anchored_vs_loose :
    (∀ (out P L u v : List Char), out = u ++ L ++ v → matchPromiseLine P L = true →
      lastLineRejects out P = true →
      checkTerminalPromise out P = false ∧ checkCompletion out P = true) ∧
    ¬(∀ out P : List Char, checkTerminalPromise out P = checkCompletion out P) := by
  constructor
  · intro out P L u v hout hL hrej
    constructor
    · unfold checkTerminalPromise
      unfold lastLineRejects at hrej
      cases hg : getLastNonEmptyLine out with
      | none => rfl
      | some l =>
        rw [hg] at hrej
        show matchPromiseLine P l = false
        simpa using hrej
    · exact checkCompletion_of_occurs u v (by rw [hout, List.append_assoc]) hL
  · intro hall
    have h := hall ("<promise>DONE</promise>\nstill working".data) ("DONE".data)
    exact absurd h (by decide)

theorem c2_witness :
    checkTerminalPromise ("<promise>DONE</promise>\nstill working".data) ("DONE".data) = false ∧
    checkCompletion ("<promise>DONE</promise>\nstill working".data) ("DONE".data) = true :=
  c2_anchored_vs_loose.1 _ _ ("<promise>DONE</promise>".data) []
    ("\nstill working".data) (by decide) (by decide) (by decide)

/-! ## C9 -/

/-- C9 (amended): loadState returns null in exactly three situations — the
state file is absent, its content fails to parse as JSON (the catch in the
source turns the parse throw into null, never an error), or the content
parses successfully to the JSON value null (file content `null`), which the
source returns unchanged.  The claim's "exactly two situations" misses the
third path (see the counterexample). -/
theorem c9_loadState_none_iff {J : Type} (parseJson : List Char → Option (Option J))
    (fileContent : Option (List Char)) :
    loadState parseJson fileContent = none ↔
      fileContent = none ∨ ∃ raw, fileContent = some raw ∧
        (parseJson raw = none ∨ parseJson raw = some none) := by
  cases fileContent with
  | none => simp [loadState]
  | some raw =>
    cases hp : parseJson raw with
    | none => simp [loadState, hp]
    | some v =>
      cases v with
      | none => simp [loadState, hp]
      | some x => simp [loadState, hp]

/-- C9 counterexample: with a state file whose content is the text `null`,
JSON.parse succeeds and returns the JSON value null, so loadState returns
null although the file exists and its content parses — the claim's
"exactly two situations" iff fails at this input. -/
theorem c9_counterexample :
    ¬(loadState parseNullExample (some ("null".data)) = none ↔
      ((some ("null".data) : Option (List Char)) = none ∨
        ∃ raw, (some ("null".data) : Option (List Char)) = some raw ∧
          parseNullExample raw = none)) := by
  intro h
  have hl : loadState parseNullExample (some ("null".data)) = none := by decide
  rcases h.mp hl with h1 | ⟨raw, hraw, hparse⟩
  · exact absurd h1 (by decide)
  · have hr : "null".data = raw := by injection hraw
    rw [← hr] at hparse
    exact absurd hparse (by decide)

/-! ## C10 -/

/-- C10: on ANSI-free output, anchored acceptance implies loose acceptance;
the converse fails on a concrete output, and with ANSI codes inside the tag
the anchored detector can accept while the loose detector rejects, because
only the anchored detector strips ANSI before matching. -/
theorem c10_detector_relation :
    (∀ out P : List Char, stripAnsi out = out → checkTerminalPromise out P = true →
      checkCompletion out P = true) ∧
    (checkCompletion ("<promise>DONE</promise>\nmore text".data) ("DONE".data) = true ∧
      checkTerminalPromise ("<promise>DONE</promise>\nmore text".data) ("DONE".data) = false) ∧
    (checkTerminalPromise ("<promise>\x1b[1mDONE\x1b[0m</promise>".data) ("DONE".data) = true ∧
      checkCompletion ("<promise>\x1b[1mDONE\x1b[0m</promise>".data) ("DONE".data) = false) :=
  ⟨fun _ _ hc h => anchored_implies_loose hc h, by decide, by decide⟩

theorem c10_witness :
    stripAnsi ("ok\n<promise>DONE</promise>".data) = "ok\n<promise>DONE</promise>".data ∧
    checkTerminalPromise ("ok\n<promise>DONE</promise>".data) ("DONE".data) = true ∧
    checkCompletion ("ok\n<promise>DONE</promise>".data) ("DONE".data) = true :=
  ⟨by decide, by decide, c10_detector_relation.1 _ _ (by decide) (by decide)⟩

/-! ## C1 -/

/-- C1 (amended): for every promise T that contains no newline and whose tag
line is left unchanged by ANSI stripping (no ANSI escape sequence inside the
tag), and every body B not containing T's tag form, appending a newline and
the line `<promise>` ++ T ++ `</promise>` makes the anchored detector
accept.  Unrestricted promises falsify the original claim: a promise
containing a newline splits the appended tag across two lines
(see the counterexample). -/
theorem c1_append_tag_detected (T B : List Char) (hnl : '\n' ∉ T)
    (hstrip : stripAnsi (promiseTagLine T) = promiseTagLine T)
    (_hbody : checkCompletion B T = false) :
    checkTerminalPromise (B ++ '\n' :: promiseTagLine T) T = true := by
  have htagnl : '\n' ∉ promiseTagLine T := by
    intro hmem
    simp [promiseTagLine, List.mem_append, openTagL, closeTagL] at hmem
    exact hnl hmem
  have htrim : trimChars (promiseTagLine T) = promiseTagLine T := by
    apply trim_eq_self
    · intro c hc
      have hsh : promiseTagLine T =
          '<' :: (['p', 'r', 'o', 'm', 'i', 's', 'e', '>'] ++ (T ++ closeTagL)) := rfl
      rw [hsh, List.head?_cons] at hc
      have hcc : '<' = c := by injection hc
      rw [← hcc]
      decide
    · intro c hc
      have hsh : promiseTagLine T =
          (openTagL ++ (T ++ ['<', '/', 'p', 'r', 'o', 'm', 'i', 's', 'e'])) ++ ['>'] := by
        show openTagL ++ (T ++ (['<', '/', 'p', 'r', 'o', 'm', 'i', 's', 'e'] ++ ['>'])) = _
        simp [List.append_assoc]
      rw [hsh, List.getLast?_concat] at hc
      have hcc : '>' = c := by injection hc
      rw [← hcc]
      decide
  have hne : promiseTagLine T ≠ [] := by simp [promiseTagLine, openTagL]
  unfold checkTerminalPromise
  rw [getLast_append_tag htagnl hstrip htrim hne]
  show matchPromiseLine T (promiseTagLine T) = true
  have hparts := @matchPromiseLine_parts T openTagL [] T [] closeTagL
    (ciListEq_refl _) (by simp) (ciListEq_refl _) (by simp) (ciListEq_refl _)
  simpa [promiseTagLine] using hparts

/-- C1 counterexample: the claim as stated quantifies over every promise
string; with the promise `x\ny` (which contains a newline) and an empty body
(which contains no tag form), the anchored detector rejects the appended
output, because the last non-empty line is only the second half of the
split tag. -/
theorem c1_counterexample :
    checkCompletion [] ("x\ny".data) = false ∧
    checkTerminalPromise ([] ++ '\n' :: promiseTagLine ("x\ny".data)) ("x\ny".data) = false := by
  decide

theorem c1_witness :
    ('\n' ∉ ("DONE".data : List Char)) ∧
    stripAnsi (promiseTagLine ("DONE".data)) = promiseTagLine ("DONE".data) ∧
    checkCompletion ("working".data) ("DONE".data) = false ∧
    checkTerminalPromise ("working".data ++ '\n' :: promiseTagLine ("DONE".data))
      ("DONE".data) = true :=
  ⟨by decide, by decide, by decide,
    c1_append_tag_detected _ _ (by decide) (by decide) (by decide)⟩

/-! ## C3 -/

/-- C3 (amended): promise-tag matching ignores ASCII case and inner
whitespace and treats the promise text literally.  For every promise P, a
tag whose delimiters and promise text differ from the canonical ones only
in letter case, with arbitrary whitespace runs between the delimiters and
the promise, is accepted by the loose detector unconditionally, and by the
anchored detector whenever the tag contains no newline and no ANSI escape
sequence (a newline inside the tag splits it across lines and the anchored
detector then rejects — see the counterexample).  On empty input the
anchored detector returns false, and regex metacharacters in the promise
never act as pattern operators. -/
theorem c3_tag_matching :
    (∀ P o' w1 p' w2 c' : List Char,
        ciListEq openTagL o' = true → (∀ x ∈ w1, isJsWs x = true) →
        ciListEq P p' = true → (∀ x ∈ w2, isJsWs x = true) →
        ciListEq closeTagL c' = true →
        checkCompletion (o' ++ (w1 ++ (p' ++ (w2 ++ c')))) P = true ∧
          ('\n' ∉ (o' ++ (w1 ++ (p' ++ (w2 ++ c')))) →
            stripAnsi (o' ++ (w1 ++ (p' ++ (w2 ++ c')))) = o' ++ (w1 ++ (p' ++ (w2 ++ c'))) →
            checkTerminalPromise (o' ++ (w1 ++ (p' ++ (w2 ++ c')))) P = true)) ∧
    (∀ P : List Char, checkTerminalPromise [] P = false) ∧
    (checkTerminalPromise ("<PROMISE>   complete   </PROMISE>".data) ("COMPLETE".data) = true ∧
      checkCompletion ("<promise>aXb</promise>".data) ("a.b".data) = false ∧
      checkTerminalPromise ("<promise>a.b</promise>".data) ("a.b".data) = true) := by
  refine ⟨?_, ?_, by decide⟩
  · intro P o' w1 p' w2 c' ho h1 hp h2 hc
    have hmatch : matchPromiseLine P (o' ++ (w1 ++ (p' ++ (w2 ++ c')))) = true :=
      matchPromiseLine_parts ho h1 hp h2 hc
    constructor
    · exact checkCompletion_of_occurs [] [] (by simp) hmatch
    · intro hnl hstrip
      have hne : o' ++ (w1 ++ (p' ++ (w2 ++ c'))) ≠ [] := by
        obtain ⟨b, bs, hobs, _⟩ := ciListEq_open_shape ho
        rw [hobs]
        simp
      have htrim : trimChars (o' ++ (w1 ++ (p' ++ (w2 ++ c')))) =
          o' ++ (w1 ++ (p' ++ (w2 ++ c'))) := by
        apply trim_eq_self
        · intro ch hch
          obtain ⟨b, bs, hobs, hbci⟩ := ciListEq_open_shape ho
          rw [hobs, List.cons_append, List.head?_cons] at hch
          have hbc : b = ch := by injection hch
          rw [← hbc]
          exact isJsWs_false_of_toNat (Or.inl (ciEq_lt_toNat hbci))
        · intro ch hch
          have hc10 : closeTagL = ['<', '/', 'p', 'r', 'o', 'm', 'i', 's', 'e'] ++ ['>'] := rfl
          rw [hc10] at hc
          obtain ⟨bs, y, hcy, hyci⟩ := ciListEq_concat '>' hc
          have hshape : o' ++ (w1 ++ (p' ++ (w2 ++ c'))) =
              (o' ++ (w1 ++ (p' ++ (w2 ++ bs)))) ++ [y] := by
            rw [hcy]
            simp [List.append_assoc]
          rw [hshape, List.getLast?_concat] at hch
          have hyc : y = ch := by injection hch
          rw [← hyc]
          exact isJsWs_false_of_toNat (Or.inr (ciEq_gt_toNat hyci))
      have hlast := getLast_single hnl hstrip htrim hne
      unfold checkTerminalPromise
      rw [hlast]
      exact hmatch
  · intro P
    rfl

/-- C3 counterexample: a newline is whitespace, and with a newline between
the open delimiter and the promise the tag is split across lines: the
anchored detector rejects it even though the loose detector accepts it, so
the claim's "holds for both detectors" fails as stated. -/
theorem c3_counterexample :
    checkTerminalPromise ("<promise>\nCOMPLETE</promise>".data) ("COMPLETE".data) = false ∧
    checkCompletion ("<promise>\nCOMPLETE</promise>".data) ("COMPLETE".data) = true := by
  decide

theorem c3_witness :
    checkCompletion ("<PROMISE>".data ++ (" ".data ++ ("a.b".data ++
      (" ".data ++ "</PROMISE>".data)))) ("A.B".data) = true ∧
    checkTerminalPromise ("<PROMISE>".data ++ (" ".data ++ ("a.b".data ++
      (" ".data ++ "</PROMISE>".data)))) ("A.B".data) = true := by
  have h := c3_tag_matching.1 ("A.B".data) ("<PROMISE>".data) (" ".data) ("a.b".data)
    (" ".data) ("</PROMISE>".data) (by decide) (by decide) (by decide) (by decide) (by decide)
  exact ⟨h.1, h.2 (by decide) (by decide)⟩

/-! ## C4 -/

theorem loopStep_next_inv {cfg : LoopCfg} {i j : Nat}
    (h : loopStep cfg i = IterOutcome.next j) :
    j = i + 1 ∧ ¬(0 < cfg.maxIter ∧ cfg.maxIter < i) := by
  unfold loopStep at h
  split at h
  · exact absurd h (by simp)
  · rename_i hcond
    split at h
    · exact absurd h (by simp)
    · split at h
      · exact absurd h (by simp)
      · split at h
        · exact absurd h (by simp)
        · injection h with hj
          exact ⟨hj.symm, hcond⟩

theorem loopStep_not_max {cfg : LoopCfg} {i : Nat} {o : IterOutcome}
    (h : loopStep cfg i = o) (hne : o ≠ IterOutcome.stopMax) :
    ¬(0 < cfg.maxIter ∧ cfg.maxIter < i) := by
  intro hcon
  unfold loopStep at h
  rw [if_pos hcon] at h
  exact hne h.symm

theorem runFrom_spawn_bound {cfg : LoopCfg} :
    ∀ (fuel i s : Nat) (r : TermResult), runFrom cfg fuel i s = some r →
      0 < cfg.maxIter → i ≤ cfg.maxIter + 1 → r.spawns ≤ s + (cfg.maxIter + 1 - i) := by
  intro fuel
  induction fuel with
  | zero =>
    intro i s r h _ _
    simp [runFrom] at h
  | succ f ih =>
    intro i s r h hpos hle
    rw [runFrom] at h
    cases hstep : loopStep cfg i with
    | stopMax =>
      rw [hstep] at h
      injection h with hr
      rw [← hr]
      simp
    | stopPlaceholder =>
      rw [hstep] at h
      injection h with hr
      have hni := loopStep_not_max hstep (by simp)
      rw [← hr]
      simp only []
      omega
    | stopChild code =>
      rw [hstep] at h
      injection h with hr
      have hni := loopStep_not_max hstep (by simp)
      rw [← hr]
      simp only []
      omega
    | stopComplete =>
      rw [hstep] at h
      injection h with hr
      have hni := loopStep_not_max hstep (by simp)
      rw [← hr]
      simp only []
      omega
    | next j =>
      rw [hstep] at h
      obtain ⟨hj, hni⟩ := loopStep_next_inv hstep
      subst hj
      have := ih (i + 1) (s + 1) r h hpos (by omega)
      omega

/-- C4: with a positive bound the driver never starts an iteration past the
bound — the guard fires before any child is spawned, the state file is
cleared and the exit code is 0; at most maxIterations children are ever
spawned; with maxIterations = 1 and a benign child that never emits the tag
exactly one iteration runs and the loop ends with exit code 0 and a cleared
state file; maxIterations = 0 imposes no limit. -/
theorem c4_max_iterations :
    (∀ (cfg : LoopCfg) (i : Nat), 0 < cfg.maxIter → cfg.maxIter < i →
      loopStep cfg i = IterOutcome.stopMax ∧
        (∀ fuel s : Nat, runFrom cfg (fuel + 1) i s =
          some ⟨TermKind.maxReached, s, none⟩) ∧
        exitCodeOfTerm TermKind.maxReached = 0) ∧
    (∀ (cfg : LoopCfg) (fuel : Nat) (r : TermResult), runRalphLoop cfg fuel = some r →
      0 < cfg.maxIter → r.spawns ≤ cfg.maxIter) ∧
    (∀ cfg : LoopCfg, cfg.maxIter = 1 →
      (∀ n, detectPlaceholderPluginError (combinedOutput cfg n) = false) →
      (∀ n, cfg.childExit n = 0) →
      (∀ n, checkCompletion (combinedOutput cfg n) cfg.promise = false) →
      runRalphLoop cfg 2 = some ⟨TermKind.maxReached, 1, none⟩ ∧
        exitCodeOfTerm TermKind.maxReached = 0) ∧
    (∀ (cfg : LoopCfg) (i : Nat), cfg.maxIter = 0 →
      loopStep cfg i ≠ IterOutcome.stopMax) := by
  refine ⟨?_, ?_, ?_, ?_⟩
  · intro cfg i h1 h2
    have hstep : loopStep cfg i = IterOutcome.stopMax := by
      unfold loopStep
      rw [if_pos ⟨h1, h2⟩]
    refine ⟨hstep, ?_, rfl⟩
    intro fuel s
    rw [runFrom, hstep]
  · intro cfg fuel r h hpos
    have := runFrom_spawn_bound fuel 1 0 r h hpos (by omega)
    omega
  · intro cfg hmax hp he hc
    refine ⟨?_, rfl⟩
    have hstep1 : loopStep cfg 1 = IterOutcome.next 2 := by
      unfold loopStep
      simp [hmax, hp 1, he 1, hc 1]
    have hstep2 : loopStep cfg 2 = IterOutcome.stopMax := by
      unfold loopStep
      rw [if_pos (by rw [hmax]; omega)]
    show runFrom cfg (1 + 1) 1 0 = some ⟨TermKind.maxReached, 1, none⟩
    rw [runFrom, hstep1]
    show runFrom cfg (0 + 1) 2 (0 + 1) = some ⟨TermKind.maxReached, 1, none⟩
    rw [runFrom, hstep2]
  · intro cfg i hmax
    unfold loopStep
    rw [if_neg (by rw [hmax]; omega)]
    split
    · simp
    · split
      · simp
      · split <;> simp

theorem c4_witness :
    runRalphLoop exampleLoopCfg 2 = some ⟨TermKind.maxReached, 1, none⟩ ∧
      exitCodeOfTerm TermKind.maxReached = 0 :=
  c4_max_iterations.2.2.1 exampleLoopCfg rfl
    (fun _ =>
      (by decide :
        detectPlaceholderPluginError ("hello".data ++ '\n' :: ([] : List Char)) = false))
    (fun _ => rfl)
    (fun _ =>
      (by decide :
        checkCompletion ("hello".data ++ '\n' :: ([] : List Char)) ("DONE".data) = false))

/-! ## C5 -/

theorem lineTaskMarker_class {line : List Char} {m : Char}
    (h : lineTaskMarker line = some m) : taskMarkerChar m = true := by
  unfold lineTaskMarker at h
  repeat' split at h
  all_goals
    first
      | (injection h with hm; rw [← hm]; assumption)
      | exact absurd h (by simp)

theorem marker_x_iff {m : Char} (hcls : taskMarkerChar m = true) :
    foldNat m.toNat = 120 ↔ (m = 'x' ∨ m = 'X') := by
  simp only [taskMarkerChar, Bool.or_eq_true, beq_iff_eq] at hcls
  rcases hcls with ((h | h) | h) | h <;> subst h <;> decide

theorem tasksGo_true_iff :
    ∀ (lines : List (List Char)) (saw : Bool),
      tasksGo saw lines = true ↔
        ((saw = true ∨ ∃ L ∈ lines, (lineTaskMarker L).isSome) ∧
          ∀ L ∈ lines, ∀ m, lineTaskMarker L = some m → foldNat m.toNat = 120) := by
  intro lines
  induction lines with
  | nil =>
    intro saw
    simp [tasksGo]
  | cons line rest ih =>
    intro saw
    cases hm : lineTaskMarker line with
    | none =>
      rw [show tasksGo saw (line :: rest) = tasksGo saw rest from by simp [tasksGo, hm]]
      rw [ih saw]
      constructor
      · rintro ⟨h1, h2⟩
        refine ⟨?_, ?_⟩
        · rcases h1 with h | ⟨L, hL, hLs⟩
          · exact Or.inl h
          · exact Or.inr ⟨L, by simp [hL], hLs⟩
        · intro L hL m hm2
          rcases List.mem_cons.mp hL with h | h
          · subst h
            rw [hm] at hm2
            exact absurd hm2 (by simp)
          · exact h2 L h m hm2
      · rintro ⟨h1, h2⟩
        refine ⟨?_, fun L hL m hm2 => h2 L (by simp [hL]) m hm2⟩
        rcases h1 with h | ⟨L, hL, hLs⟩
        · exact Or.inl h
        · rcases List.mem_cons.mp hL with h | h
          · subst h
            rw [hm] at hLs
            exact absurd hLs (by simp)
          · exact Or.inr ⟨L, h, hLs⟩
    | some m0 =>
      by_cases hx : foldNat m0.toNat = 120
      · rw [show tasksGo saw (line :: rest) = tasksGo true rest from by
          simp [tasksGo, hm, hx]]
        rw [ih true]
        constructor
        · rintro ⟨_, h2⟩
          refine ⟨Or.inr ⟨line, by simp, by simp [hm]⟩, ?_⟩
          intro L hL m hm2
          rcases List.mem_cons.mp hL with h | h
          · subst h
            rw [hm] at hm2
            injection hm2 with hmm
            rw [← hmm]
            exact hx
          · exact h2 L h m hm2
        · rintro ⟨_, h2⟩
          exact ⟨Or.inl rfl, fun L hL m hm2 => h2 L (by simp [hL]) m hm2⟩
      · rw [show tasksGo saw (line :: rest) = false from by simp [tasksGo, hm, hx]]
        constructor
        · intro hfalse
          exact absurd hfalse (by simp)
        · rintro ⟨_, h2⟩
          exact absurd (h2 line (by simp) m0 hm) hx

/-- C5: tasksMarkdownAllComplete returns true exactly when the document has
at least one checklist task line and every task line's marker is x or X; in
particular it is false for documents with no task line and false when some
marker is a space or a slash. -/
theorem c5_all_tasks_complete_iff (md : List Char) :
    tasksMarkdownAllComplete md = true ↔
      ((∃ L ∈ docLines md, (lineTaskMarker L).isSome) ∧
        ∀ L ∈ docLines md, ∀ m, lineTaskMarker L = some m → (m = 'x' ∨ m = 'X')) := by
  unfold tasksMarkdownAllComplete
  rw [tasksGo_true_iff (docLines md) false]
  constructor
  · rintro ⟨h1, h2⟩
    refine ⟨?_, ?_⟩
    · rcases h1 with h | h
      · exact absurd h (by simp)
      · exact h
    · intro L hL m hm
      exact (marker_x_iff (lineTaskMarker_class hm)).mp (h2 L hL m hm)
  · rintro ⟨h1, h2⟩
    refine ⟨Or.inr h1, ?_⟩
    intro L hL m hm
    exact (marker_x_iff (lineTaskMarker_class hm)).mpr (h2 L hL m hm)

theorem c5_witness : tasksMarkdownAllComplete ("- [x] one\n- [X] two".data) = true :=
  (c5_all_tasks_complete_iff ("- [x] one\n- [X] two".data)).mpr ⟨by decide, by decide⟩

/-! ## C6 -/

/-- C6: formatToolSummary sorts the tool entries stably by descending count,
renders the top maxItems as `name count` parts joined by the bullet
separator, and appends `+K more` exactly when more entries than maxItems
exist, K being the number of entries not shown; the spec's concrete counts
render as required with the default maxItems = 6 and with maxItems = 2. -/
theorem c6_format_tool_summary :
    formatToolSummaryDefault [("read", 5), ("write", 2), ("bash", 7)] =
      "bash 7 • read 5 • write 2" ∧
    formatToolSummary [("read", 5), ("write", 2), ("bash", 7)] 2 =
      "bash 7 • read 5 • +1 more" ∧
    (∀ tc : List (String × Nat),
      (sortToolEntries tc).Perm tc ∧ List.Sorted toolEntryGe (sortToolEntries tc)) ∧
    (∀ (tc : List (String × Nat)) (n : Nat), (sortToolEntries tc).length ≤ n →
      formatToolSummary tc n =
        String.intercalate toolSep (((sortToolEntries tc).take n).map entryFmt)) ∧
    (∀ (tc : List (String × Nat)) (n : Nat), n < (sortToolEntries tc).length →
      formatToolSummary tc n =
        String.intercalate toolSep (((sortToolEntries tc).take n).map entryFmt ++
          ["+" ++ Nat.repr ((sortToolEntries tc).length - n) ++ " more"])) := by
  refine ⟨by decide, by decide, ?_, ?_, ?_⟩
  · intro tc
    exact ⟨List.perm_insertionSort toolEntryGe tc, List.sorted_insertionSort toolEntryGe tc⟩
  · intro tc n hlen
    by_cases htc : tc = []
    · subst htc
      rw [show sortToolEntries ([] : List (String × Nat)) = [] from rfl, List.take_nil,
        List.map_nil]
      rfl
    · have hemp : tc.isEmpty = false := by
        cases tc with
        | nil => exact absurd rfl htc
        | cons a as => rfl
      have hto : ((sortToolEntries tc).take n).length = (sortToolEntries tc).length := by
        rw [List.length_take]
        exact min_eq_right hlen
      simp only [formatToolSummary, hemp, Bool.false_eq_true, if_false, hto, Nat.sub_self,
        Nat.lt_irrefl, if_false]
  · intro tc n hlt
    have htc : tc ≠ [] := by
      intro h
      subst h
      simp [sortToolEntries, List.insertionSort] at hlt
    have hemp : tc.isEmpty = false := by
      cases tc with
      | nil => exact absurd rfl htc
      | cons a as => rfl
    have hto : ((sortToolEntries tc).take n).length = n := by
      rw [List.length_take]
      exact min_eq_left (le_of_lt hlt)
    simp only [formatToolSummary, hemp, Bool.false_eq_true, if_false, hto]
    rw [if_pos (Nat.sub_pos_of_lt hlt)]

theorem c6_witness :
    ((sortToolEntries [("read", 5), ("write", 2), ("bash", 7)]).length ≤ 9) ∧
    formatToolSummary [("read", 5), ("write", 2), ("bash", 7)] 9 =
      "bash 7 • read 5 • write 2" := by
  refine ⟨by decide, ?_⟩
  have h := c6_format_tool_summary.2.2.2.1 [("read", 5), ("write", 2), ("bash", 7)] 9
    (by decide)
  rw [h]
  decide

/-! ## C7 -/

theorem head_dropWhile_not {p : Char → Bool} :
    ∀ {l : List Char} {c : Char}, (l.dropWhile p).head? = some c → p c = false := by
  intro l
  induction l with
  | nil =>
    intro c h
    simp [List.dropWhile] at h
  | cons a as ih =>
    intro c h
    by_cases hp : p a = true
    · rw [List.dropWhile_cons, if_pos hp] at h
      exact ih h
    · have hp2 : p a = false := by revert hp; cases p a <;> simp
      rw [List.dropWhile_cons, hp2] at h
      simp only [Bool.false_eq_true, if_false, List.head?_cons] at h
      injection h with hac
      rw [← hac]
      exact hp2

theorem takeWhile_append_token {p : Char → Bool} :
    ∀ {tok rest : List Char}, tok.all p = true → (∀ c, rest.head? = some c → p c = false) →
      (tok ++ rest).takeWhile p = tok := by
  intro tok
  induction tok with
  | nil =>
    intro rest _ hmax
    cases rest with
    | nil => rfl
    | cons r rs =>
      rw [List.nil_append, List.takeWhile_cons, hmax r rfl]
      rfl
  | cons a toks ih =>
    intro rest hall hmax
    simp only [List.all_cons, Bool.and_eq_true] at hall
    rw [List.cons_append, List.takeWhile_cons, hall.1]
    simp only [if_true]
    rw [ih hall.2 hmax]

/-- C7 (amended): a line is recognized as a tool-invocation marker exactly
when, after ANSI stripping, it starts with a pipe followed by exactly two
whitespace characters (the source's `\s{2}` — any whitespace, not only the
space character, see the counterexample) and then a maximal non-empty token
of letters, digits, hyphens or underscores, which is the captured tool
name; and the recognition rule of the live line handler is identical to the
buffered-mode collector's. -/
theorem c7_tool_marker_rule :
    (∀ line : List Char, handleLineToolMatch line = collectToolLineMatch line) ∧
    (∀ line tok : List Char,
      collectToolLineMatch line = some tok ↔
        (tok ≠ [] ∧ tok.all toolTokenChar = true ∧
          ∃ c1 c2 rest, isJsWs c1 = true ∧ isJsWs c2 = true ∧
            stripAnsi line = '|' :: c1 :: c2 :: (tok ++ rest) ∧
            (∀ c, rest.head? = some c → toolTokenChar c = false))) := by
  constructor
  · intro line
    rfl
  · intro line tok
    constructor
    · intro h
      unfold collectToolLineMatch at h
      split at h
      · rename_i c1 c2 rest₀ heq
        split at h
        · rename_i hws
          dsimp only [] at h
          split at h
          · exact absurd h (by simp)
          · rename_i htokne
            injection h with htk
            rw [Bool.and_eq_true] at hws
            refine ⟨?_, ?_, c1, c2, rest₀.dropWhile toolTokenChar, hws.1, hws.2, ?_, ?_⟩
            · intro hnil
              apply htokne
              rw [htk, hnil]
              rfl
            · rw [← htk]
              exact List.all_takeWhile
            · rw [heq, ← htk, List.takeWhile_append_dropWhile]
            · intro c hc
              exact head_dropWhile_not hc
        · exact absurd h (by simp)
      · exact absurd h (by simp)
    · rintro ⟨hne, hall, c1, c2, rest, h1, h2, hline, hmax⟩
      have htw : (tok ++ rest).takeWhile toolTokenChar = tok :=
        takeWhile_append_token hall hmax
      have hemp : tok.isEmpty = false := by
        cases tok with
        | nil => exact absurd rfl hne
        | cons a as => rfl
      simp only [collectToolLineMatch, hline, htw, h1, h2, Bool.and_self, if_true, hemp,
        Bool.false_eq_true, if_false]

theorem c7_counterexample :
    collectToolLineMatch ("|\t\tbash tool".data) = some ("bash".data) ∧
    specToolMarker ("|\t\tbash tool".data) = none := by
  decide

theorem c7_witness :
    collectToolLineMatch ("|  read file.txt".data) = some ("read".data) ∧
    handleLineToolMatch ("|  read file.txt".data) =
      collectToolLineMatch ("|  read file.txt".data) :=
  ⟨(c7_tool_marker_rule.2 _ _).mpr
      ⟨by decide, by decide, ' ', ' ', " file.txt".data, by decide, by decide, by decide,
        by decide⟩,
    c7_tool_marker_rule.1 _⟩

/-! ## C8 -/

/-- C8: formatDuration truncates the millisecond input to whole seconds and
renders M:SS while the elapsed hours are zero and H:MM:SS (minutes and
seconds zero-padded to two digits) once hours are at least one; in
particular 45000 ms renders as 0:45 and 3661000 ms as 1:01:01. -/
theorem c8_format_duration :
    formatDuration 45000 = "0:45" ∧
    formatDuration 3661000 = "1:01:01" ∧
    (∀ ms : Int, formatDuration ms = formatDuration (1000 * Int.fdiv ms 1000)) ∧
    (∀ t : Nat, t < 3600 →
      formatDuration (1000 * (t : Int)) = Nat.repr (t / 60) ++ ":" ++ pad2 (t % 60)) ∧
    (∀ t : Nat, 3600 ≤ t →
      formatDuration (1000 * (t : Int)) =
        Nat.repr (t / 3600) ++ ":" ++ pad2 (t / 60 % 60) ++ ":" ++ pad2 (t % 60)) := by
  have hcancel : ∀ k : Int, Int.fdiv (1000 * k) 1000 = k := fun k =>
    Int.mul_fdiv_cancel_left k (by norm_num)
  refine ⟨by decide, by decide, ?_, ?_, ?_⟩
  · intro ms
    simp only [formatDuration, hcancel]
  · intro t hlt
    have hm : (max 0 ((t : Nat) : Int)).toNat = t := by omega
    simp only [formatDuration, hcancel, hm]
    rw [Nat.div_eq_of_lt hlt, Nat.mod_eq_of_lt hlt]
    simp
  · intro t hge
    have hm : (max 0 ((t : Nat) : Int)).toNat = t := by omega
    have hpos : 0 < t / 3600 := Nat.div_pos hge (by norm_num)
    simp only [formatDuration, hcancel, hm, if_pos hpos]
    rw [show (3600 : Nat) = 60 * 60 from rfl, Nat.mod_mul_right_div_self]

theorem c8_witness :
    (45 < 3600) ∧
    formatDuration (1000 * ((45 : Nat) : Int)) = Nat.repr (45 / 60) ++ ":" ++ pad2 (45 % 60) :=
  ⟨by decide, c8_format_duration.2.2.2.1 45 (by decide)⟩

theorem c9_witness :
    loadState parseNullExample (some ("not json".data)) = none ∧
    loadState parseNullExample (some ("null".data)) = none :=
  ⟨(c9_loadState_none_iff parseNullExample (some ("not json".data))).mpr
      (Or.inr ⟨"not json".data, rfl, Or.inl (by decide)⟩),
    (c9_loadState_none_iff parseNullExample (some ("null".data))).mpr
      (Or.inr ⟨"null".data, rfl, Or.inr (by decide)⟩)⟩
